import Mathlib

/-!
Verification of the distributed key-value storage repository.

Shallow embedding of the Go sources:
  internal/store (Version, Entry, Store with memtable and SSTables),
  internal/gossip (State, Merge),
  internal/quorum (IsQuorum),
  internal/consistenthash (Ring: Add, Get, search),
  internal/node (coordinator GET winner fold, internal PUT handler).

Machine integers are modelled as Nat/Int (only comparisons and small
increments occur, never overflow-relevant arithmetic).  The xxhash64
function is an external dependency of the repository; it is modelled as
an abstract function parameter of type String to Nat.  Disk operations
(file creation, buffered writes) can fail; their outcome is passed
explicitly as a parameter.
-/

namespace DKV

/-! ## Version (internal/store: Version.Compare) -/

/-- Version: pair of a Lamport counter and a node id
(Go: type Version struct, Counter uint64, NodeID string). -/
structure Version where
  counter : Nat
  nodeID  : String
deriving DecidableEq, Repr

/-- Go Version.Compare: returns +1 if v > o, -1 if v < o, 0 if equal,
comparing counters first, then node ids lexicographically. -/
def Version.compare (v o : Version) : Int :=
  if o.counter < v.counter then 1
  else if v.counter < o.counter then -1
  else if o.nodeID < v.nodeID then 1
  else if v.nodeID < o.nodeID then -1
  else 0

theorem Version.compare_le_zero (v o : Version) :
    v.compare o ≤ 0 ↔
      (v.counter < o.counter ∨ (v.counter = o.counter ∧ v.nodeID ≤ o.nodeID)) := by
  unfold Version.compare
  split_ifs with h1 h2 h3 h4
  · constructor
    · intro h; omega
    · intro h
      rcases h with h | ⟨h, _⟩ <;> omega
  · constructor
    · intro _; exact Or.inl h2
    · intro _; omega
  · constructor
    · intro h; omega
    · intro h
      rcases h with h | ⟨h, hs⟩
      · omega
      · exact absurd h3 (not_lt.mpr hs)
  · constructor
    · intro _
      exact Or.inr ⟨by omega, le_of_lt h4⟩
    · intro _; omega
  · constructor
    · intro _
      exact Or.inr ⟨by omega, not_lt.mp h3⟩
    · intro _; omega

theorem Version.compare_pos (v o : Version) :
    0 < v.compare o ↔
      (o.counter < v.counter ∨ (o.counter = v.counter ∧ o.nodeID < v.nodeID)) := by
  unfold Version.compare
  split_ifs with h1 h2 h3 h4
  · constructor
    · intro _; exact Or.inl h1
    · intro _; omega
  · constructor
    · intro h; omega
    · intro h
      rcases h with h | ⟨h, _⟩ <;> omega
  · constructor
    · intro _
      exact Or.inr ⟨by omega, h3⟩
    · intro _; omega
  · constructor
    · intro h; omega
    · intro h
      rcases h with h | ⟨h, hs⟩
      · omega
      · exact absurd h4 (not_lt.mpr (le_of_lt hs))
  · constructor
    · intro h; omega
    · intro h
      rcases h with h | ⟨h, hs⟩
      · omega
      · exact absurd hs h3

theorem Version.compare_self (v : Version) : v.compare v = 0 := by
  unfold Version.compare
  simp [lt_irrefl]

theorem Version.compare_le_trans {a b c : Version}
    (hab : a.compare b ≤ 0) (hbc : b.compare c ≤ 0) : a.compare c ≤ 0 := by
  rw [Version.compare_le_zero] at hab hbc ⊢
  rcases hab with h1 | ⟨h1, hs1⟩ <;> rcases hbc with h2 | ⟨h2, hs2⟩
  · exact Or.inl (lt_trans h1 h2)
  · exact Or.inl (by omega)
  · exact Or.inl (by omega)
  · exact Or.inr ⟨by omega, le_trans hs1 hs2⟩

theorem Version.compare_pos_flip {a b : Version}
    (h : 0 < a.compare b) : b.compare a ≤ 0 := by
  rw [Version.compare_pos] at h
  rw [Version.compare_le_zero]
  rcases h with h | ⟨h, hs⟩
  · exact Or.inl h
  · exact Or.inr ⟨h, le_of_lt hs⟩

/-! ## Entry and Store (internal/store/store.go) -/

/-- Entry: key, value bytes, version (Go: type Entry struct). Bytes are
modelled as a list of naturals. -/
structure Entry where
  key   : String
  value : List Nat
  ver   : Version
deriving DecidableEq, Repr

/-- Outcome of the disk operations performed by one flush attempt:
os.Create failing, the buffered write failing at w.Flush after n entries
reached the file, or everything succeeding. -/
inductive DiskOutcome where
  | createFail : DiskOutcome
  | writeFail  : Nat → DiskOutcome
  | ok         : DiskOutcome
deriving DecidableEq, Repr

/-- Store: in-memory memtable (a Go map from key to Entry, modelled as a
list with unique keys maintained by insertion) plus the on-disk SSTable
files, newest first, each a list of JSON lines. -/
structure Store where
  memtable       : List Entry
  sstables       : List (List Entry)
  flushThreshold : Nat
deriving DecidableEq, Repr

/-- Go NewStore: empty memtable, no files yet. -/
def newStore (flushThreshold : Nat) : Store :=
  { memtable := [], sstables := [], flushThreshold := flushThreshold }

/-- Go map assignment memtable[e.Key] = e: any existing binding for the
key is replaced. -/
def mtInsert (e : Entry) (m : List Entry) : List Entry :=
  m.filter (fun x => x.key != e.key) ++ [e]

/-- The flush snapshot: all memtable entries sorted ascending by key
(Go: sort.Slice by Key). -/
def snapshot (m : List Entry) : List Entry :=
  List.insertionSort (fun a b : Entry => a.key ≤ b.key) m

/-- Go Store.writeToSSTable: no-op on an empty memtable; on create
failure nothing is written; on a write (Flush) failure the partially
written file exists but the memtable is retained; only on success is the
memtable cleared.  Returns (err == nil, new state). -/
def Store.writeToSSTable (oc : DiskOutcome) (s : Store) : Bool × Store :=
  if s.memtable.length = 0 then (true, s)
  else
    match oc with
    | .createFail => (false, s)
    | .writeFail n => (false, { s with sstables := (snapshot s.memtable).take n :: s.sstables })
    | .ok => (true, { s with memtable := [], sstables := snapshot s.memtable :: s.sstables })

/-- The rejection test of Go Store.Put: the memtable holds a version for
the key that is not strictly smaller than the incoming one. -/
def Store.putRejected (e : Entry) (s : Store) : Bool :=
  match s.memtable.find? (fun x => x.key == e.key) with
  | some cur => decide (e.ver.compare cur.ver ≤ 0)
  | none => false

/-- Go Store.Put: returns false and changes nothing when rejected;
otherwise writes the memtable slot and triggers a flush at the threshold
(a flush error is logged and ignored: Put still returns true). -/
def Store.put (oc : DiskOutcome) (e : Entry) (s : Store) : Bool × Store :=
  if Store.putRejected e s then (false, s)
  else
    let s' : Store := { s with memtable := mtInsert e s.memtable }
    if s.flushThreshold ≤ s'.memtable.length then
      (true, (Store.writeToSSTable oc s').2)
    else (true, s')

/-- Go readFromSSTable: scan the file's lines in order, first line whose
key matches wins. -/
def fileGet (k : String) (file : List Entry) : Option Entry :=
  file.find? (fun e => e.key == k)

/-- Go Store.Get: memtable first, then the SSTables newest first,
returning the first hit. -/
def Store.get (k : String) (s : Store) : Option Entry :=
  match s.memtable.find? (fun e => e.key == k) with
  | some e => some e
  | none => s.sstables.findSome? (fun f => fileGet k f)

/-! ## Membership (internal/gossip/gossip.go) -/

/-- Gossip State: map from node id to address (a Go map, modelled as a
function to Option) and the logical timestamp (Go: int64 UnixNano). -/
structure GState where
  nodes : String → Option String
  ts    : Int

/-- Go State.Merge: ignore the remote state unless its ts is strictly
larger; otherwise every remote binding overwrites the local one and the
local ts becomes the remote ts. -/
def GState.merge (s other : GState) : GState :=
  if other.ts ≤ s.ts then s
  else
    { nodes := fun k =>
        match other.nodes k with
        | some v => some v
        | none => s.nodes k,
      ts := other.ts }

/-- Extensional equality of membership states: same timestamp and the
same binding for every node id (the meaning of == on Go map states). -/
def stateEquiv (a b : GState) : Prop :=
  a.ts = b.ts ∧ ∀ k, a.nodes k = b.nodes k

/-! ## Quorum (internal/quorum/quorum.go) and coordinator constants -/

/-- Go quorum.IsQuorum. -/
def IsQuorum (acks total required : Int) : Bool :=
  acks ≥ required && total ≥ required

/-- internal/node/node.go constants. -/
def replicaFactor : Int := 3

def writeQuorum : Int := 2

def readQuorum : Int := 2

/-! ## Coordinator (internal/node/node.go) -/

/-- Body of an internal replication request: value bytes and version. -/
structure KvReq where
  value : List Nat
  ver   : Version
deriving DecidableEq, Repr

/-- Go Node.HandleInternalKV (after a successful JSON decode): 400 when
the key query parameter is empty, otherwise store via Store.Put and
reply 201 Created when stored, 200 OK when not. -/
def handleInternalKV (oc : DiskOutcome) (key : String) (req : KvReq) (s : Store) :
    Nat × Store :=
  if key = "" then (400, s)
  else
    let r := Store.put oc { key := key, value := req.value, ver := req.ver } s
    (if r.1 then 201 else 200, r.2)

/-- The Go zero value of Entry: the initial winner in handleKvGet. -/
def emptyEntry : Entry := { key := "", value := [], ver := { counter := 0, nodeID := "" } }

/-- One iteration of the handleKvGet replica loop: a miss (none)
contributes nothing; on a hit the entry becomes the winner when it is
the first hit (acks == 0) or its version is strictly greater, and the
ack counter is incremented. -/
def gatherStep (st : Entry × Nat) (resp : Option Entry) : Entry × Nat :=
  match resp with
  | none => st
  | some e =>
      (if st.2 = 0 || decide (0 < e.ver.compare st.1.ver) then e else st.1, st.2 + 1)

/-- The winner/acks state after handleKvGet's loop over the per-replica
responses (some entry = the replica answered with a hit, none = miss,
unknown peer, or transport failure). -/
def gatherGet (rs : List (Option Entry)) : Entry × Nat :=
  rs.foldl gatherStep (emptyEntry, 0)

/-- The entries of the replicas that responded with a hit. -/
def hits (rs : List (Option Entry)) : List Entry :=
  rs.filterMap id

/-! ## Ring (internal/consistenthash/ring.go) -/

/-- Ring: virtual-node count per physical node, the hash-to-node-id map
(a Go map with "" for absent, modelled as a total function), and the
slice of virtual-node hashes.  Hash values are 64-bit in Go; only
equality and order on them matter here, so they are naturals. -/
structure Ring where
  replicas : Nat
  hashMap  : Nat → String
  keys     : List Nat

/-- Go NewRing. -/
def newRing (replicas : Nat) : Ring :=
  { replicas := replicas, hashMap := fun _ => "", keys := [] }

/-- The hash of the i-th virtual node of a physical node:
xxhash.Sum64String(strconv.Itoa(i) + nodeID), with the external xxhash64
function abstracted as h. -/
def vhash (h : String → Nat) (i : Nat) (nodeID : String) : Nat :=
  h (toString i ++ nodeID)

/-- Go Ring.Add: append the replicas virtual hashes for the node, record
them in the hash map, and re-sort the keys slice ascending. -/
def Ring.add (h : String → Nat) (r : Ring) (nodeID : String) : Ring :=
  let hs := (List.range r.replicas).map (fun i => vhash h i nodeID)
  { replicas := r.replicas,
    hashMap := hs.foldl (fun m x => fun y => if y = x then nodeID else m y) r.hashMap,
    keys := List.insertionSort (fun a b : Nat => a ≤ b) (r.keys ++ hs) }

/-- Go Ring.search: smallest index whose key is >= h, wrapping to 0
(sort.Search on the sorted keys slice). -/
def Ring.search (r : Ring) (hk : Nat) : Nat :=
  match r.keys.findIdx? (fun x => hk ≤ x) with
  | some i => i
  | none => 0

/-- The body of Go Ring.Get's walk, made total with a fuel parameter:
none means the loop is still running after consuming all the fuel.  The
visited set of the Go code always holds exactly the node ids already in
res, so membership in res models it. -/
def Ring.getLoop (r : Ring) (num : Int) : Nat → Nat → List String → Option (List String)
  | 0, _, _ => none
  | fuel + 1, idx, res =>
      if (res.length : Int) < num then
        let nodeID := r.hashMap (r.keys.getD idx 0)
        Ring.getLoop r num fuel ((idx + 1) % r.keys.length)
          (if nodeID ∈ res then res else res ++ [nodeID])
      else some res

/-- Go Ring.Get: nil for an empty ring or num <= 0, otherwise the
clockwise walk from the key's position collecting distinct node ids. -/
def Ring.get (h : String → Nat) (r : Ring) (key : String) (num : Int) (fuel : Nat) :
    Option (List String) :=
  if r.keys.length = 0 || num ≤ 0 then some []
  else Ring.getLoop r num fuel (r.search (h key)) []

/-- A ring built by the startup wiring: NewRing followed by one Add per
node id, in list order (cmd/node/main.go). -/
def buildRing (h : String → Nat) (replicas : Nat) (ids : List String) : Ring :=
  ids.foldl (Ring.add h) (newRing replicas)

/-! ## Shared helper lemmas -/

/-- A Put whose version does not beat the memtable entry for the key is
rejected: false and unchanged state. -/
theorem put_noop_of_memtable_stale (oc : DiskOutcome) (e : Entry) (s : Store)
    (cur : Entry) (hfind : s.memtable.find? (fun x => x.key == e.key) = some cur)
    (hle : e.ver.compare cur.ver ≤ 0) : Store.put oc e s = (false, s) := by
  have hrej : Store.putRejected e s = true := by
    unfold Store.putRejected
    rw [hfind]
    exact decide_eq_true hle
  unfold Store.put
  rw [hrej]
  rfl

/-! ## C10: quorum arithmetic -/

/-- C10: IsQuorum(acks, total, required) is true exactly when acks >=
required and total >= required; whenever total < required it is false no
matter how many acks were collected, so with the coordinator's call
pattern IsQuorum(acks, replicaFactor, writeQuorum / readQuorum) success
also needs replicaFactor >= the threshold (which holds for 3 >= 2). -/
theorem isQuorum_characterization (acks total required : Int) :
    (IsQuorum acks total required = true ↔ required ≤ acks ∧ required ≤ total) ∧
    (total < required → IsQuorum acks total required = false) ∧
    (IsQuorum acks replicaFactor writeQuorum = true ↔ writeQuorum ≤ acks) ∧
    (IsQuorum acks replicaFactor readQuorum = true ↔ readQuorum ≤ acks) := by
  unfold IsQuorum replicaFactor writeQuorum readQuorum
  refine ⟨?_, ?_, ?_, ?_⟩ <;>
    simp only [Bool.and_eq_true, decide_eq_true_eq, ge_iff_le, Bool.and_eq_false_iff,
      decide_eq_false_iff_not, not_le] <;>
    omega

/-- C10 witness: three acks cannot make a quorum of 2 out of a total of 1. -/
theorem isQuorum_characterization_witness : IsQuorum 3 1 2 = false :=
  (isQuorum_characterization 3 1 2).2.1 (by decide)

/-! ## C7: flush failure and the memtable

The repository carries two copies of the store engine.  The flush of
internal/store/store.go (writeToSSTable) checks the buffered-write error
and clears the memtable only after a successful flush.  The flush of the
second copy (func (s *Store) flush) discards the buffered-write error
with a blank assignment and then clears the memtable unconditionally, so
a write failure there loses the retained entries. -/

/-- The conforming flush of internal/store/store.go clears the memtable
exactly when it succeeds; on file-creation failure or write failure the
memtable is retained unchanged, ready for the next flush trigger. -/
theorem flush_failure_retains_memtable (oc : DiskOutcome) (s : Store) :
    ((Store.writeToSSTable oc s).1 = true ↔ (Store.writeToSSTable oc s).2.memtable = []) ∧
    ((Store.writeToSSTable oc s).1 = false →
      (Store.writeToSSTable oc s).2.memtable = s.memtable) := by
  unfold Store.writeToSSTable
  split
  case isTrue h =>
    simp only [List.length_eq_zero] at h
    simp [h]
  case isFalse h =>
    have hne : s.memtable ≠ [] := by
      intro hnil
      exact h (by rw [hnil]; rfl)
    cases oc <;> simp [hne]

/-- A concrete failed conforming flush keeps the single memtable entry
(exercises the hypothesis of the previous theorem). -/
theorem flush_failure_retains_memtable_witness :
    (Store.writeToSSTable .createFail
        { memtable := [{ key := "k", value := [7], ver := { counter := 1, nodeID := "a" } }],
          sstables := [], flushThreshold := 2 }).2.memtable =
      [{ key := "k", value := [7], ver := { counter := 1, nodeID := "a" } }] :=
  (flush_failure_retains_memtable .createFail
      { memtable := [{ key := "k", value := [7], ver := { counter := 1, nodeID := "a" } }],
        sstables := [], flushThreshold := 2 }).2 (by decide)

/-- The duplicate store copy's flush: identical to writeToSSTable except
that the buffered-write error is discarded, so the function reports
success and clears the memtable even when the write failed (only
os.Create failures are still propagated and retain the memtable). -/
def Store.flushDup (oc : DiskOutcome) (s : Store) : Bool × Store :=
  if s.memtable.length = 0 then (true, s)
  else
    match oc with
    | .createFail => (false, s)
    | .writeFail n =>
        (true, { s with memtable := [], sstables := (snapshot s.memtable).take n :: s.sstables })
    | .ok => (true, { s with memtable := [], sstables := snapshot s.memtable :: s.sstables })

/-- The memtable entry of the C7 failing input. -/
def exC7e : Entry := { key := "k", value := [7], ver := { counter := 1, nodeID := "a" } }

/-- The store state of the C7 failing input: one retained entry, flush
pending. -/
def exStore7 : Store := { memtable := [exC7e], sstables := [], flushThreshold := 2 }

/-- C7: at a flush whose buffered write fails, the duplicate copy's
flush clears the non-empty memtable (and even reports success), losing
the entries the claim requires to be retained, while the conforming
writeToSSTable of internal/store/store.go retains them. -/
theorem flushDup_clears_memtable_on_write_failure :
    exStore7.memtable ≠ [] ∧
    (Store.flushDup (.writeFail 0) exStore7).2.memtable = [] ∧
    (Store.flushDup (.writeFail 0) exStore7).1 = true ∧
    (Store.writeToSSTable (.writeFail 0) exStore7).2.memtable = exStore7.memtable := by
  decide

/-! ## C2: stale put rejection -/

/-- First entry of the C2 counterexample: version (5, n1) for key k. -/
def exE1 : Entry := { key := "k", value := [1], ver := { counter := 5, nodeID := "n1" } }

/-- Second entry of the C2 counterexample: the smaller version (3, n1). -/
def exE2 : Entry := { key := "k", value := [2], ver := { counter := 3, nodeID := "n1" } }

/-- C2 counterexample: with flush threshold 1, putting exE1 flushes it
into an SSTable and empties the memtable; the store then holds version
(5, n1) for key k (in a file), yet putting the strictly smaller version
(3, n1) returns true and changes the stored state, because Put compares
against the memtable only.  This refutes the claim for the current
version taken as the greatest across memtable and SSTable files. -/
theorem store_put_stale_version_counterexample :
    (∃ f ∈ ((Store.put .ok exE1 (newStore 1)).2).sstables, ∃ x ∈ f,
        x.key = exE2.key ∧ exE2.ver.compare x.ver ≤ 0) ∧
    (Store.put .ok exE2 (Store.put .ok exE1 (newStore 1)).2).1 = true ∧
    (Store.put .ok exE2 (Store.put .ok exE1 (newStore 1)).2).2 ≠
      (Store.put .ok exE1 (newStore 1)).2 := by
  decide

/-- C2 amended: when the version currently stored for the key in the
MEMTABLE (the comparison basis of Store.Put) is >= the incoming one,
Put returns false and leaves the stored state unchanged. -/
theorem store_put_stale_memtable_noop (oc : DiskOutcome) (e : Entry) (s : Store)
    (cur : Entry) (hfind : s.memtable.find? (fun x => x.key == e.key) = some cur)
    (hle : e.ver.compare cur.ver ≤ 0) : Store.put oc e s = (false, s) :=
  put_noop_of_memtable_stale oc e s cur hfind hle

/-- C2 witness: a concrete stale put against a memtable entry is a
rejected no-op. -/
theorem store_put_stale_memtable_noop_witness :
    Store.put .ok exE2 { memtable := [exE1], sstables := [], flushThreshold := 10 } =
      (false, { memtable := [exE1], sstables := [], flushThreshold := 10 }) :=
  store_put_stale_memtable_noop .ok exE2
    { memtable := [exE1], sstables := [], flushThreshold := 10 } exE1
    (by decide) (by decide)

/-! ## C6: internal PUT replay semantics -/

/-- The replayed request of the C6 counterexample: value [9] at version
(5, n1), the very version already stored. -/
def exReq6 : KvReq := { value := [9], ver := { counter := 5, nodeID := "n1" } }

/-- The entry the C6 counterexample's first internal PUT stores (and the
replay re-stores). -/
def exE6 : Entry := { key := "k", value := [9], ver := { counter := 5, nodeID := "n1" } }

/-- C6 counterexample: with flush threshold 1, an internal PUT of version
(5, n1) for key k is stored (201) and flushed into an SSTable; the store
then returns exactly that entry for k, yet REPLAYING the identical
request — a version already stored and not strictly greater than the
current one — is answered 201 again and changes the store, because
Store.Put only compares against the now-empty memtable.  This refutes
the claim that such a replay is a 200 no-op. -/
theorem internal_put_replay_counterexample :
    (handleInternalKV .ok "k" exReq6 (newStore 1)).1 = 201 ∧
    Store.get "k" (handleInternalKV .ok "k" exReq6 (newStore 1)).2 = some exE6 ∧
    exReq6.ver.compare exE6.ver ≤ 0 ∧
    (handleInternalKV .ok "k" exReq6 (handleInternalKV .ok "k" exReq6 (newStore 1)).2).1 = 201 ∧
    (handleInternalKV .ok "k" exReq6 (handleInternalKV .ok "k" exReq6 (newStore 1)).2).2 ≠
      (handleInternalKV .ok "k" exReq6 (newStore 1)).2 :=
  ⟨by decide, by decide, le_of_eq (Version.compare_self exReq6.ver), by decide, by decide⟩

/-- C6 amended: the internal PUT handler replies 201 Created exactly
when Store.Put returned true; a replay whose version does not beat the
one held for the key in the MEMTABLE (the only slot Store.Put compares
against) is a no-op on the store and is answered 200 OK.  Once the
stored version has been flushed out of the memtable, a replay is
re-stored and answered 201. -/
theorem internal_put_replay_status (oc : DiskOutcome) (key : String) (req : KvReq)
    (s : Store) (hk : key ≠ "") :
    ((handleInternalKV oc key req s).1 = 201 ↔
      (Store.put oc { key := key, value := req.value, ver := req.ver } s).1 = true) ∧
    (∀ cur, s.memtable.find? (fun x => x.key == key) = some cur →
      req.ver.compare cur.ver ≤ 0 → handleInternalKV oc key req s = (200, s)) := by
  constructor
  · unfold handleInternalKV
    rw [if_neg hk]
    cases h : (Store.put oc { key := key, value := req.value, ver := req.ver } s).1 <;>
      simp [h]
  · intro cur hfind hle
    have hput : Store.put oc { key := key, value := req.value, ver := req.ver } s = (false, s) :=
      put_noop_of_memtable_stale oc _ s cur hfind hle
    unfold handleInternalKV
    rw [if_neg hk, hput]
    rfl

/-- The memtable entry of the C6 witness. -/
def exC6 : Entry := { key := "k", value := [9], ver := { counter := 5, nodeID := "n1" } }

/-- C6 witness: replaying an older version (3, n1) against the stored
(5, n1) for key k is answered 200 and leaves the store unchanged. -/
theorem internal_put_replay_status_witness :
    handleInternalKV .ok "k" { value := [1], ver := { counter := 3, nodeID := "n1" } }
        { memtable := [exC6], sstables := [], flushThreshold := 10 } =
      (200, { memtable := [exC6], sstables := [], flushThreshold := 10 }) :=
  (internal_put_replay_status .ok "k" { value := [1], ver := { counter := 3, nodeID := "n1" } }
      { memtable := [exC6], sstables := [], flushThreshold := 10 }
      (by decide)).2 exC6 (by decide) (by decide)

/-! ## C3: gossip merge absorption -/

/-- C3 counterexample state A: binds only node y, timestamp 2. -/
def exA : GState := { nodes := fun k => if k = "y" then some "ay" else none, ts := 2 }

/-- C3 counterexample state B: binds only node x, timestamp 1. -/
def exB : GState := { nodes := fun k => if k = "x" then some "bx" else none, ts := 1 }

/-- C3 counterexample: with ts(A) = 2 > 1 = ts(B), merging B into A
leaves A unchanged, but merging A into B does NOT yield A: B's binding
for x survives the merge because Merge only overwrites keys present in
the remote map, so the merged state differs from A at key x. -/
theorem gossip_merge_absorbing_counterexample :
    exA.ts > exB.ts ∧ GState.merge exA exB = exA ∧
    ¬ stateEquiv (GState.merge exB exA) exA := by
  refine ⟨by decide, ?_, ?_⟩
  · unfold GState.merge
    rw [if_pos (by decide)]
  · intro hequiv
    have hx := hequiv.2 "x"
    unfold GState.merge at hx
    rw [if_neg (by decide)] at hx
    simp [exA, exB] at hx

/-- C3 amended: for ts(A) > ts(B), A.merge(B) = A, and B.merge(A) takes
A's timestamp and all of A's bindings (A's bindings override B's); it
equals A precisely in the sense of stateEquiv whenever every node id
bound in B is also bound in A (B's extra bindings are what survive). -/
theorem gossip_merge_absorbing_amended (A B : GState) (h : B.ts < A.ts) :
    GState.merge A B = A ∧
    (GState.merge B A).ts = A.ts ∧
    (∀ k v, A.nodes k = some v → (GState.merge B A).nodes k = some v) ∧
    ((∀ k, (B.nodes k).isSome → (A.nodes k).isSome) →
      stateEquiv (GState.merge B A) A) := by
  have hBA : ¬ (A.ts ≤ B.ts) := not_le.mpr h
  refine ⟨?_, ?_, ?_, ?_⟩
  · unfold GState.merge
    rw [if_pos (le_of_lt h)]
  · unfold GState.merge
    rw [if_neg hBA]
  · intro k v hav
    unfold GState.merge
    rw [if_neg hBA]
    simp [hav]
  · intro hdom
    unfold GState.merge
    rw [if_neg hBA]
    refine ⟨rfl, fun k => ?_⟩
    cases hA : A.nodes k with
    | some v => simp [hA]
    | none =>
        cases hB : B.nodes k with
        | none => simp [hA, hB]
        | some w =>
            have := hdom k (by rw [hB]; rfl)
            rw [hA] at this
            exact absurd this (by simp)

/-- C3 witness state with the larger timestamp and one binding. -/
def exA2 : GState := { nodes := fun k => if k = "x" then some "ax" else none, ts := 5 }

/-- C3 witness state with the smaller timestamp and no bindings. -/
def exB2 : GState := { nodes := fun _ => none, ts := 1 }

/-- C3 witness for the amended statement: when B's bindings are a subset
of A's (here B binds nothing), the larger-ts state absorbs in both
directions. -/
theorem gossip_merge_absorbing_amended_witness :
    exB2.ts < exA2.ts ∧ stateEquiv (GState.merge exB2 exA2) exA2 :=
  ⟨by decide,
    (gossip_merge_absorbing_amended exA2 exB2 (by decide)).2.2.2
      (fun k hk => by simp [exB2] at hk)⟩

/-! ## C4: the GET winner carries the maximum version -/

theorem hits_cons_none (rest : List (Option Entry)) : hits (none :: rest) = hits rest := by
  simp [hits]

theorem hits_cons_some (e : Entry) (rest : List (Option Entry)) :
    hits (some e :: rest) = e :: hits rest := by
  simp [hits]

/-- Invariant of the handleKvGet replica loop: the ack counter counts the
hits, and the winner is a hit that dominates (under Version.Compare)
every hit seen, with a previous winner's bound carried along. -/
theorem gather_fold_invariant (rs : List (Option Entry)) (st : Entry × Nat) :
    ((rs.foldl gatherStep st).2 = st.2 + (hits rs).length) ∧
    (0 < st.2 →
      ((rs.foldl gatherStep st).1 = st.1 ∨ (rs.foldl gatherStep st).1 ∈ hits rs) ∧
      st.1.ver.compare (rs.foldl gatherStep st).1.ver ≤ 0 ∧
      ∀ e ∈ hits rs, e.ver.compare (rs.foldl gatherStep st).1.ver ≤ 0) ∧
    (st.2 = 0 → hits rs ≠ [] →
      ((rs.foldl gatherStep st).1 ∈ hits rs ∧
       ∀ e ∈ hits rs, e.ver.compare (rs.foldl gatherStep st).1.ver ≤ 0)) := by
  induction rs generalizing st with
  | nil =>
      refine ⟨by simp [hits], fun _ => ⟨Or.inl rfl, ?_, by simp [hits]⟩, fun _ h => ?_⟩
      · exact le_of_eq (Version.compare_self st.1.ver)
      · exact absurd (by simp [hits]) h
  | cons r rest ih =>
      cases r with
      | none =>
          have hstep : gatherStep st none = st := rfl
          have := ih st
          simpa [List.foldl_cons, hstep, hits_cons_none] using this
      | some e =>
          set w : Entry := if st.2 = 0 || decide (0 < e.ver.compare st.1.ver) then e else st.1 with hw
          have hstep : gatherStep st (some e) = (w, st.2 + 1) := rfl
          have ihw := ih (w, st.2 + 1)
          have hpos : 0 < (w, st.2 + 1).2 := Nat.succ_pos st.2
          obtain ⟨ihcount, ihb, _⟩ := ihw
          have hb := ihb hpos
          obtain ⟨hbmem, hbold, hball⟩ := hb
          have hew : e.ver.compare w.ver ≤ 0 := by
            by_cases hc : (st.2 = 0 || decide (0 < e.ver.compare st.1.ver)) = true
            · rw [hw, if_pos hc]
              exact le_of_eq (Version.compare_self e.ver)
            · rw [hw, if_neg hc]
              simp only [Bool.or_eq_true, decide_eq_true_eq, not_or] at hc
              omega
          have hmemw : w = e ∨ w = st.1 := by
            by_cases hc : (st.2 = 0 || decide (0 < e.ver.compare st.1.ver)) = true
            · exact Or.inl (by rw [hw, if_pos hc])
            · exact Or.inr (by rw [hw, if_neg hc])
          refine ⟨?_, ?_, ?_⟩
          · rw [List.foldl_cons, hstep, ihcount, hits_cons_some]
            simp
            omega
          · intro hst
            have hstw : st.1.ver.compare w.ver ≤ 0 := by
              by_cases hc : (st.2 = 0 || decide (0 < e.ver.compare st.1.ver)) = true
              · rw [hw, if_pos hc]
                simp only [Bool.or_eq_true, decide_eq_true_eq] at hc
                rcases hc with hc | hc
                · omega
                · exact Version.compare_pos_flip hc
              · rw [hw, if_neg hc]
                exact le_of_eq (Version.compare_self st.1.ver)
            refine ⟨?_, ?_, ?_⟩
            · rw [List.foldl_cons, hstep, hits_cons_some]
              rcases hbmem with hfin | hfin
              · rcases hmemw with hww | hww
                · exact Or.inr (by rw [hfin, hww]; exact List.mem_cons_self e _)
                · exact Or.inl (by rw [hfin, hww])
              · exact Or.inr (List.mem_cons_of_mem e hfin)
            · rw [List.foldl_cons, hstep]
              exact Version.compare_le_trans hstw hbold
            · rw [List.foldl_cons, hstep, hits_cons_some]
              intro x hx
              rcases List.mem_cons.mp hx with hxe | hxr
              · rw [hxe]
                exact Version.compare_le_trans hew hbold
              · exact hball x hxr
          · intro hst _
            have hc : (st.2 = 0 || decide (0 < e.ver.compare st.1.ver)) = true := by
              simp [hst]
            have hwe : w = e := by rw [hw, if_pos hc]
            refine ⟨?_, ?_⟩
            · rw [List.foldl_cons, hstep, hits_cons_some]
              rcases hbmem with hfin | hfin
              · exact (by rw [hfin, hwe]; exact List.mem_cons_self e _)
              · exact List.mem_cons_of_mem e hfin
            · rw [List.foldl_cons, hstep, hits_cons_some]
              intro x hx
              rcases List.mem_cons.mp hx with hxe | hxr
              · rw [hxe, ← hwe]
                exact hbold
              · exact hball x hxr

/-- C4: whenever the read quorum is met, the winner returned by the
handleKvGet fold is one of the entries the hitting replicas returned and
its version is the maximum among them under Version.Compare: the first
hit is taken unconditionally and later hits replace it only on strictly
greater. -/
theorem kvget_winner_is_max_version (rs : List (Option Entry))
    (hq : IsQuorum ((gatherGet rs).2 : Int) replicaFactor readQuorum = true) :
    (gatherGet rs).1 ∈ hits rs ∧
    ∀ e ∈ hits rs, e.ver.compare (gatherGet rs).1.ver ≤ 0 := by
  have hinv := gather_fold_invariant rs (emptyEntry, 0)
  have hacks : 2 ≤ (gatherGet rs).2 := by
    unfold IsQuorum readQuorum replicaFactor at hq
    simp only [Bool.and_eq_true, decide_eq_true_eq, ge_iff_le] at hq
    exact_mod_cast hq.1
  have hne : hits rs ≠ [] := by
    intro h0
    have hcount := hinv.1
    rw [h0] at hcount
    simp only [List.length_nil, Nat.add_zero] at hcount
    unfold gatherGet at hacks
    omega
  exact hinv.2.2 rfl hne

/-- The replica responses of the C4 witness: hits with versions (1, A)
and (2, B) and one miss. -/
def rs4 : List (Option Entry) :=
  [some { key := "x", value := [1], ver := { counter := 1, nodeID := "A" } },
   some { key := "x", value := [2], ver := { counter := 2, nodeID := "B" } },
   none]

/-- C4 witness: two hits meet the read quorum and the (2, B) entry wins. -/
theorem kvget_winner_is_max_version_witness :
    IsQuorum ((gatherGet rs4).2 : Int) replicaFactor readQuorum = true ∧
    ((gatherGet rs4).1 ∈ hits rs4 ∧
     ∀ e ∈ hits rs4, e.ver.compare (gatherGet rs4).1.ver ≤ 0) :=
  ⟨by decide, kvget_winner_is_max_version rs4 (by decide)⟩

/-! ## C5: put visibility is monotone in version on a single key -/

theorem mem_mtInsert_self (e : Entry) (m : List Entry) : e ∈ mtInsert e m := by
  unfold mtInsert
  simp

theorem mtInsert_ne_nil (e : Entry) (m : List Entry) : mtInsert e m ≠ [] := by
  unfold mtInsert
  simp

/-- After a map assignment, the inserted entry is the unique entry for
its key. -/
theorem mtInsert_unique_key (e : Entry) (m : List Entry) :
    ∀ x ∈ mtInsert e m, x.key = e.key → x = e := by
  intro x hx hk
  unfold mtInsert at hx
  rcases List.mem_append.mp hx with hx | hx
  · have := (List.mem_filter.mp hx).2
    simp only [bne_iff_ne, ne_eq] at this
    exact absurd hk this
  · simpa using hx

/-- Looking up the just-assigned key finds the new entry. -/
theorem find?_mtInsert (e : Entry) (m : List Entry) (k : String) (hk : k = e.key) :
    (mtInsert e m).find? (fun x => x.key == k) = some e := by
  subst hk
  unfold mtInsert
  rw [List.find?_append]
  have h1 : (m.filter (fun x => x.key != e.key)).find? (fun x => x.key == e.key) = none := by
    rw [List.find?_eq_none]
    intro x hx
    have := (List.mem_filter.mp hx).2
    simpa using this
  rw [h1]
  simp

/-- First-match lookup returns the unique entry bearing the key. -/
theorem find?_of_unique_key (k : String) (e : Entry) (l : List Entry) (hmem : e ∈ l)
    (hk : e.key = k) (huniq : ∀ x ∈ l, x.key = k → x = e) :
    l.find? (fun x => x.key == k) = some e := by
  induction l with
  | nil => cases hmem
  | cons a t ih =>
      by_cases ha : a.key = k
      · rw [List.find?_cons_of_pos _ (by simp [ha])]
        rw [huniq a (List.mem_cons_self a t) ha]
      · rw [List.find?_cons_of_neg _ (by simp [ha])]
        have het : e ∈ t := by
          rcases List.mem_cons.mp hmem with he | he
          · exact absurd (he ▸ hk) ha
          · exact he
        exact ih het (fun x hx hxk => huniq x (List.mem_cons_of_mem a hx) hxk)

/-- The flushed file of a memtable that just received e holds e as its
unique entry for e.key. -/
theorem fileGet_snapshot_mtInsert (e : Entry) (m : List Entry) :
    fileGet e.key (snapshot (mtInsert e m)) = some e := by
  unfold fileGet snapshot
  apply find?_of_unique_key e.key e
  · exact (List.perm_insertionSort _ _).mem_iff.mpr (mem_mtInsert_self e m)
  · rfl
  · intro x hx hxk
    exact mtInsert_unique_key e m x ((List.perm_insertionSort _ _).subset hx) hxk

/-- A Put that returned true was not rejected. -/
theorem put_true_not_rejected (oc : DiskOutcome) (e : Entry) (s : Store)
    (h : (Store.put oc e s).1 = true) : Store.putRejected e s = false := by
  cases hr : Store.putRejected e s
  · rfl
  · unfold Store.put at h
    rw [hr] at h
    simp at h

/-- What a non-rejected Put does: returns true, and either the entry sits
in the memtable slot, or a flush emptied the memtable into a new first
SSTable holding the snapshot. -/
theorem put_spec (oc : DiskOutcome) (e : Entry) (s : Store)
    (h : Store.putRejected e s = false) :
    (Store.put oc e s).1 = true ∧
    ((Store.put oc e s).2.memtable = mtInsert e s.memtable ∨
     ((Store.put oc e s).2.memtable = [] ∧
      (Store.put oc e s).2.sstables = snapshot (mtInsert e s.memtable) :: s.sstables)) := by
  unfold Store.put
  rw [h]
  simp only [Bool.false_eq_true, if_false]
  split
  case isTrue hthr =>
      unfold Store.writeToSSTable
      have hlen : (mtInsert e s.memtable).length ≠ 0 := by
        simpa using mtInsert_ne_nil e s.memtable
      rw [if_neg hlen]
      cases oc
      case createFail => exact ⟨rfl, Or.inl rfl⟩
      case writeFail n => exact ⟨rfl, Or.inl rfl⟩
      case ok => exact ⟨rfl, Or.inr ⟨rfl, rfl⟩⟩
  case isFalse hthr => exact ⟨rfl, Or.inl rfl⟩

/-- A Put whose lookup misses is not rejected. -/
theorem putRejected_of_none (e : Entry) (s : Store)
    (h : s.memtable.find? (fun x => x.key == e.key) = none) :
    Store.putRejected e s = false := by
  unfold Store.putRejected
  rw [h]

/-- A Put with a strictly greater version than the memtable slot is not
rejected. -/
theorem putRejected_of_gt (e : Entry) (s : Store) (cur : Entry)
    (hfind : s.memtable.find? (fun x => x.key == e.key) = some cur)
    (h : 0 < e.ver.compare cur.ver) : Store.putRejected e s = false := by
  unfold Store.putRejected
  rw [hfind]
  simp only [decide_eq_false_iff_not, not_le]
  exact h

/-- C5: storing e1 and then e2 for the same key with e2's version
strictly greater makes the second Put succeed and a subsequent Get
return e2, across every flush outcome of either Put. -/
theorem store_put_visibility_monotone (s : Store) (oc1 oc2 : DiskOutcome) (e1 e2 : Entry)
    (hkey : e2.key = e1.key) (hv : 0 < e2.ver.compare e1.ver)
    (h1 : (Store.put oc1 e1 s).1 = true) :
    (Store.put oc2 e2 (Store.put oc1 e1 s).2).1 = true ∧
    Store.get e2.key (Store.put oc2 e2 (Store.put oc1 e1 s).2).2 = some e2 := by
  have hrej1 := put_true_not_rejected oc1 e1 s h1
  have spec1 := put_spec oc1 e1 s hrej1
  have hrej2 : Store.putRejected e2 (Store.put oc1 e1 s).2 = false := by
    rcases spec1.2 with hm | ⟨hm, _⟩
    · exact putRejected_of_gt e2 _ e1 (by rw [hm]; exact find?_mtInsert e1 s.memtable e2.key hkey) hv
    · exact putRejected_of_none e2 _ (by rw [hm]; rfl)
  have spec2 := put_spec oc2 e2 (Store.put oc1 e1 s).2 hrej2
  refine ⟨spec2.1, ?_⟩
  rcases spec2.2 with hm | ⟨hm, hss⟩
  · unfold Store.get
    rw [hm, find?_mtInsert e2 _ e2.key rfl]
  · unfold Store.get
    rw [hm, hss]
    have hfile : (fileGet e2.key (snapshot (mtInsert e2 (Store.put oc1 e1 s).2.memtable))).isSome := by
      rw [fileGet_snapshot_mtInsert]
      rfl
    simp only [List.find?_nil]
    rw [List.findSome?_cons_of_isSome _ hfile]
    exact fileGet_snapshot_mtInsert e2 _

/-- First C5 witness entry: version (1, n). -/
def exC5a : Entry := { key := "k", value := [1], ver := { counter := 1, nodeID := "n" } }

/-- Second C5 witness entry: version (2, n). -/
def exC5b : Entry := { key := "k", value := [2], ver := { counter := 2, nodeID := "n" } }

/-- C5 witness: versions (1, n) then (2, n) on key k; the second value is
what Get returns. -/
theorem store_put_visibility_monotone_witness :
    (Store.put .ok exC5b (Store.put .ok exC5a (newStore 10)).2).1 = true ∧
    Store.get "k" (Store.put .ok exC5b (Store.put .ok exC5a (newStore 10)).2).2 = some exC5b :=
  store_put_visibility_monotone (newStore 10) .ok .ok exC5a exC5b rfl (by decide) (by decide)

/-! ## C1: the ring walk spins when the distinct nodes are exhausted -/

/-- A concrete stand-in for xxhash64 in the C1 instance (the hash values
are irrelevant to the spin: any hash exhibits it). -/
def exHash1 : String → Nat := fun _ => 0

/-- A ring holding the single physical node a (one virtual node), as a
fresh single-node cluster would build at startup. -/
def exRing1 : Ring := Ring.add exHash1 (newRing 1) "a"

theorem exRing1_loop_stuck :
    ∀ fuel res, (res = [] ∨ res = ["a"]) → Ring.getLoop exRing1 2 fuel 0 res = none := by
  intro fuel
  induction fuel with
  | zero =>
      rintro res (rfl | rfl) <;> rfl
  | succ n ih =>
      rintro res (rfl | rfl)
      · have hstep : Ring.getLoop exRing1 2 (n + 1) 0 [] = Ring.getLoop exRing1 2 n 0 ["a"] := rfl
        rw [hstep]
        exact ih ["a"] (Or.inr rfl)
      · have hstep :
            Ring.getLoop exRing1 2 (n + 1) 0 ["a"] = Ring.getLoop exRing1 2 n 0 ["a"] := rfl
        rw [hstep]
        exact ih ["a"] (Or.inr rfl)

/-- C1: on a ring with one distinct node, Get(k, 2) never returns, at any
fuel: after the single id a is collected the loop can no longer grow res,
and there is no exhaustion guard, so the walk spins forever instead of
returning the length-1 list the claim requires. -/
theorem ring_get_spins_on_exhausted_ring :
    ∀ fuel, Ring.get exHash1 exRing1 "k" 2 fuel = none := by
  intro fuel
  have hstart : Ring.get exHash1 exRing1 "k" 2 fuel = Ring.getLoop exRing1 2 fuel 0 [] := rfl
  rw [hstart]
  exact exRing1_loop_stuck fuel [] (Or.inl rfl)

/-! ## C9: ring keys stay sorted with length replicas times nodes -/

theorem foldl_add_replicas (h : String → Nat) (ids : List String) (r : Ring) :
    (ids.foldl (Ring.add h) r).replicas = r.replicas := by
  induction ids generalizing r with
  | nil => rfl
  | cons id rest ih => exact ih (Ring.add h r id)

theorem foldl_add_keys_sorted (h : String → Nat) (ids : List String) (r : Ring)
    (hr : List.Sorted (fun a b : Nat => a ≤ b) r.keys) :
    List.Sorted (fun a b : Nat => a ≤ b) (ids.foldl (Ring.add h) r).keys := by
  induction ids generalizing r with
  | nil => exact hr
  | cons id rest ih =>
      exact ih (Ring.add h r id) (List.sorted_insertionSort _ _)

theorem foldl_add_keys_length (h : String → Nat) (ids : List String) (r : Ring) :
    (ids.foldl (Ring.add h) r).keys.length = r.keys.length + r.replicas * ids.length := by
  induction ids generalizing r with
  | nil => simp
  | cons id rest ih =>
      have hstep := ih (Ring.add h r id)
      have hlen : (Ring.add h r id).keys.length = r.keys.length + r.replicas := by
        unfold Ring.add
        simp only
        rw [(List.perm_insertionSort _ _).length_eq]
        simp
      have hrep : (Ring.add h r id).replicas = r.replicas := rfl
      rw [List.foldl_cons, hstep, hlen, hrep, List.length_cons]
      ring

/-- C9: after any startup sequence of Add calls the keys slice is sorted
ascending and holds exactly replicas hashes per added node (counted with
multiplicity). -/
theorem ring_keys_sorted_length (h : String → Nat) (replicas : Nat) (ids : List String) :
    List.Sorted (fun a b : Nat => a ≤ b) (buildRing h replicas ids).keys ∧
    (buildRing h replicas ids).keys.length = replicas * ids.length := by
  constructor
  · exact foldl_add_keys_sorted h ids (newRing replicas) List.sorted_nil
  · have := foldl_add_keys_length h ids (newRing replicas)
    simpa [buildRing, newRing] using this

/-! ## C8: replica selection and insertion order -/

theorem foldl_add_keys_perm (h : String → Nat) (ids : List String) (r : Ring) :
    List.Perm (ids.foldl (Ring.add h) r).keys
      (r.keys ++ ids.flatMap (fun a => (List.range r.replicas).map (fun i => vhash h i a))) := by
  induction ids generalizing r with
  | nil => simp
  | cons id rest ih =>
      have h1 := ih (Ring.add h r id)
      have hrep : (Ring.add h r id).replicas = r.replicas := rfl
      rw [hrep] at h1
      have h2 : List.Perm (Ring.add h r id).keys
          (r.keys ++ (List.range r.replicas).map (fun i => vhash h i id)) :=
        List.perm_insertionSort _ _
      rw [List.foldl_cons]
      refine h1.trans ?_
      refine (h2.append_right _).trans ?_
      rw [List.append_assoc, List.flatMap_cons]

/-- Two rings built from permuted node lists have the same sorted keys
slice. -/
theorem buildRing_keys_perm_eq (h : String → Nat) (replicas : Nat)
    (ids1 ids2 : List String) (hperm : ids1.Perm ids2) :
    (buildRing h replicas ids1).keys = (buildRing h replicas ids2).keys := by
  apply List.eq_of_perm_of_sorted (r := fun a b : Nat => a ≤ b)
  · refine (foldl_add_keys_perm h ids1 (newRing replicas)).trans ?_
    refine List.Perm.trans ?_ (foldl_add_keys_perm h ids2 (newRing replicas)).symm
    exact List.Perm.append_left _ (hperm.flatMap_right _)
  · exact foldl_add_keys_sorted h ids1 (newRing replicas) List.sorted_nil
  · exact foldl_add_keys_sorted h ids2 (newRing replicas) List.sorted_nil

theorem writes_not_mem (nodeID : String) (hs : List Nat) (m : Nat → String) (x : Nat)
    (hx : x ∉ hs) :
    (hs.foldl (fun m x => fun y => if y = x then nodeID else m y) m) x = m x := by
  induction hs generalizing m with
  | nil => rfl
  | cons a t ih =>
      have hxt : x ∉ t := fun hmem => hx (List.mem_cons_of_mem a hmem)
      have hxa : x ≠ a := fun heq => hx (heq ▸ List.mem_cons_self a t)
      rw [List.foldl_cons, ih _ hxt]
      simp [hxa]

theorem writes_mem (nodeID : String) (hs : List Nat) (m : Nat → String) (x : Nat)
    (hx : x ∈ hs) :
    (hs.foldl (fun m x => fun y => if y = x then nodeID else m y) m) x = nodeID := by
  induction hs generalizing m with
  | nil => cases hx
  | cons a t ih =>
      by_cases hxt : x ∈ t
      · exact ih _ hxt
      · have hxa : x = a := by
          rcases List.mem_cons.mp hx with hxa | hxt2
          · exact hxa
          · exact absurd hxt2 hxt
        rw [List.foldl_cons, writes_not_mem nodeID t _ x hxt]
        simp [hxa]

/-- A hash just written by Add maps to the added node id. -/
theorem add_hashMap_mem (h : String → Nat) (r : Ring) (nodeID : String) (x : Nat)
    (hx : ∃ i, i < r.replicas ∧ x = vhash h i nodeID) :
    (Ring.add h r nodeID).hashMap x = nodeID := by
  obtain ⟨i, hi, hxi⟩ := hx
  apply writes_mem
  rw [hxi]
  exact List.mem_map_of_mem _ (List.mem_range.mpr hi)

/-- A hash not among the added node's virtual hashes is untouched by Add. -/
theorem add_hashMap_not_mem (h : String → Nat) (r : Ring) (nodeID : String) (x : Nat)
    (hx : ∀ i, i < r.replicas → x ≠ vhash h i nodeID) :
    (Ring.add h r nodeID).hashMap x = r.hashMap x := by
  apply writes_not_mem
  intro hmem
  obtain ⟨i, hir, hxi⟩ := List.mem_map.mp hmem
  exact hx i (List.mem_range.mp hir) hxi.symm

theorem foldl_add_hashMap_not_touched (h : String → Nat) (ids : List String) (r : Ring)
    (x : Nat) (hx : ∀ b ∈ ids, ∀ i, i < r.replicas → x ≠ vhash h i b) :
    (ids.foldl (Ring.add h) r).hashMap x = r.hashMap x := by
  induction ids generalizing r with
  | nil => rfl
  | cons id rest ih =>
      rw [List.foldl_cons]
      have hrest : ∀ b ∈ rest, ∀ i, i < (Ring.add h r id).replicas → x ≠ vhash h i b :=
        fun b hb i hi => hx b (List.mem_cons_of_mem id hb) i hi
      rw [ih (Ring.add h r id) hrest]
      exact add_hashMap_not_mem h r id x (fun i hi => hx id (List.mem_cons_self id rest) i hi)

/-- Under collision-freedom across distinct node ids, the hash map built
by the Add sequence sends each virtual hash to its owner. -/
theorem foldl_add_hashMap_owner (h : String → Nat) (ids : List String) (r : Ring)
    (a : String) (i : Nat) (x : Nat) (hmem : a ∈ ids) (hi : i < r.replicas)
    (hx : x = vhash h i a)
    (hinj : ∀ b ∈ ids, ∀ j, j < r.replicas → x = vhash h j b → b = a) :
    (ids.foldl (Ring.add h) r).hashMap x = a := by
  induction ids generalizing r with
  | nil => cases hmem
  | cons id rest ih =>
      rw [List.foldl_cons]
      by_cases har : a ∈ rest
      · exact ih (Ring.add h r id) har hi
          (fun b hb j hj hxb => hinj b (List.mem_cons_of_mem id hb) j hj hxb)
      · have ha : a = id := by
          rcases List.mem_cons.mp hmem with hid | hr2
          · exact hid
          · exact absurd hr2 har
        have hstep : (Ring.add h r id).hashMap x = a := by
          rw [← ha]
          exact add_hashMap_mem h r a x ⟨i, hi, hx⟩
        have hrest : ∀ b ∈ rest, ∀ j, j < (Ring.add h r id).replicas → x ≠ vhash h j b := by
          intro b hb j hj heq
          have hba := hinj b (List.mem_cons_of_mem id hb) j hj heq
          exact har (hba ▸ hb)
        rw [foldl_add_hashMap_not_touched h rest (Ring.add h r id) x hrest]
        exact hstep

/-- Every key of a built ring is a virtual hash of one of its nodes. -/
theorem mem_buildRing_keys (h : String → Nat) (replicas : Nat) (ids : List String)
    (x : Nat) (hx : x ∈ (buildRing h replicas ids).keys) :
    ∃ a ∈ ids, ∃ i, i < replicas ∧ x = vhash h i a := by
  have hperm := foldl_add_keys_perm h ids (newRing replicas)
  have hx2 := hperm.subset hx
  simp only [newRing, List.nil_append] at hx2
  obtain ⟨a, ha, hxa⟩ := List.mem_flatMap.mp hx2
  obtain ⟨i, hir, hxi⟩ := List.mem_map.mp hxa
  exact ⟨a, ha, i, List.mem_range.mp hir, hxi.symm⟩

theorem search_lt_length (r : Ring) (hk : Nat) (hpos : 0 < r.keys.length) :
    Ring.search r hk < r.keys.length := by
  unfold Ring.search
  cases hf : r.keys.findIdx? (fun x => hk ≤ x) with
  | none => exact hpos
  | some i => exact (List.findIdx?_eq_some_iff_findIdx_eq.mp hf).1

theorem getLoop_congr (r1 r2 : Ring) (hkeys : r1.keys = r2.keys)
    (hmap : ∀ x ∈ r1.keys, r1.hashMap x = r2.hashMap x) (num : Int) :
    ∀ fuel idx res, idx < r1.keys.length →
      Ring.getLoop r1 num fuel idx res = Ring.getLoop r2 num fuel idx res := by
  intro fuel
  induction fuel with
  | zero => intro idx res _; rfl
  | succ n ih =>
      intro idx res hidx
      have hpos : 0 < r1.keys.length := Nat.zero_lt_of_lt hidx
      simp only [Ring.getLoop]
      by_cases hlen : (res.length : Int) < num
      · rw [if_pos hlen, if_pos hlen]
        have hget : r1.keys.getD idx 0 = r2.keys.getD idx 0 := by rw [hkeys]
        have hmem : r1.keys.getD idx 0 ∈ r1.keys := by
          rw [List.getD_eq_getElem?_getD, List.getElem?_eq_getElem hidx]
          exact List.getElem_mem hidx
        have hnode : r2.hashMap (r1.keys.getD idx 0) = r1.hashMap (r1.keys.getD idx 0) :=
          (hmap _ hmem).symm
        rw [← hkeys, hnode]
        exact ih ((idx + 1) % r1.keys.length) _ (Nat.mod_lt _ hpos)
      · rw [if_neg hlen, if_neg hlen]

theorem get_congr (hf : String → Nat) (r1 r2 : Ring) (hkeys : r1.keys = r2.keys)
    (hmap : ∀ x ∈ r1.keys, r1.hashMap x = r2.hashMap x) (key : String) (num : Int)
    (fuel : Nat) : Ring.get hf r1 key num fuel = Ring.get hf r2 key num fuel := by
  unfold Ring.get
  have hlen : r1.keys.length = r2.keys.length := by rw [hkeys]
  by_cases hcond : (r1.keys.length = 0 || num ≤ 0) = true
  · rw [if_pos hcond, if_pos (by rw [← hlen]; exact hcond)]
  · rw [if_neg hcond, if_neg (by rw [← hlen]; exact hcond)]
    have hpos : 0 < r1.keys.length := by
      simp only [Bool.or_eq_true, decide_eq_true_eq] at hcond
      omega
    have hsearch : Ring.search r1 (hf key) = Ring.search r2 (hf key) := by
      unfold Ring.search
      rw [hkeys]
    rw [← hsearch]
    exact getLoop_congr r1 r2 hkeys hmap num fuel _ [] (search_lt_length r1 (hf key) hpos)

/-- The hash function of the C8 counterexample.  Only three values
matter: the shared virtual-node label "10a", the key "k", and everything
else. -/
def exHash8 : String → Nat :=
  fun s => if s = "10a" then 100 else if s = "k" then 50 else 300

/-- C8 counterexample: with 11 virtual nodes per physical node (the
deployed ring uses 100), the node ids a and 0a produce the SAME
virtual-node label "10a" (Itoa(10) ++ "a" and Itoa(1) ++ "0a"), so the
hash-to-node map keeps whichever node was added last and Get("k", 1)
returns a different replica for the two insertion orders. -/
theorem ring_insertion_order_counterexample :
    (["a", "0a"] : List String).Perm ["0a", "a"] ∧
    Ring.get exHash8 (buildRing exHash8 11 ["a", "0a"]) "k" 1 2 ≠
      Ring.get exHash8 (buildRing exHash8 11 ["0a", "a"]) "k" 1 2 := by
  constructor
  · decide
  · decide

/-- C8 amended: if no two DISTINCT node ids share a virtual hash (no
label collision Itoa(i)+a = Itoa(j)+b and no hash collision on distinct
labels — guaranteed e.g. for replicas <= 10 with an injective hash),
then rings built from any two insertion orders of the same node multiset
answer every Get(key, n) identically. -/
theorem ring_get_insertion_order_independent (h : String → Nat) (replicas : Nat)
    (ids1 ids2 : List String) (hperm : ids1.Perm ids2)
    (hinj : ∀ i ∈ List.range replicas, ∀ j ∈ List.range replicas,
      ∀ a ∈ ids1, ∀ b ∈ ids1, vhash h i a = vhash h j b → a = b) :
    ∀ key num fuel,
      Ring.get h (buildRing h replicas ids1) key num fuel =
        Ring.get h (buildRing h replicas ids2) key num fuel := by
  intro key num fuel
  have hkeys := buildRing_keys_perm_eq h replicas ids1 ids2 hperm
  apply get_congr h _ _ hkeys _ key num fuel
  intro x hx
  obtain ⟨a, ha, i, hi, hxa⟩ := mem_buildRing_keys h replicas ids1 x hx
  have hinj1 : ∀ b ∈ ids1, ∀ j, j < replicas → x = vhash h j b → b = a := by
    intro b hb j hj hxb
    exact hinj j (List.mem_range.mpr hj) i (List.mem_range.mpr hi) b hb a ha
      (by rw [← hxb, ← hxa])
  have hinj2 : ∀ b ∈ ids2, ∀ j, j < replicas → x = vhash h j b → b = a := by
    intro b hb j hj hxb
    exact hinj1 b (hperm.mem_iff.mpr hb) j hj hxb
  have h1 : (buildRing h replicas ids1).hashMap x = a :=
    foldl_add_hashMap_owner h ids1 (newRing replicas) a i x ha hi hxa hinj1
  have h2 : (buildRing h replicas ids2).hashMap x = a :=
    foldl_add_hashMap_owner h ids2 (newRing replicas) a i x (hperm.mem_iff.mp ha) hi hxa hinj2
  rw [h1, h2]

/-- The collision-free hash of the C8 witness. -/
def exHash8w : String → Nat :=
  fun s => if s = "0a" then 1 else if s = "0b" then 2 else 0

/-- C8 witness: one virtual node per physical node, ids a and b in either
order, and Get("k", 1) agrees. -/
theorem ring_get_insertion_order_independent_witness :
    (["a", "b"] : List String).Perm ["b", "a"] ∧
    (∀ i ∈ List.range 1, ∀ j ∈ List.range 1, ∀ a ∈ (["a", "b"] : List String),
      ∀ b ∈ (["a", "b"] : List String), vhash exHash8w i a = vhash exHash8w j b → a = b) ∧
    Ring.get exHash8w (buildRing exHash8w 1 ["a", "b"]) "k" 1 5 =
      Ring.get exHash8w (buildRing exHash8w 1 ["b", "a"]) "k" 1 5 :=
  ⟨by decide, by decide,
    ring_get_insertion_order_independent exHash8w 1 ["a", "b"] ["b", "a"]
      (by decide) (by decide) "k" 1 5⟩

end DKV
